import Mathlib

/-!
# Verification of the system-monitor TUI core (src/main.rs)

A shallow embedding of the sampling, aggregation, ranking, scanning and
formatting logic of the system monitor, together with proofs of the behavioural
properties stated in its specification.

Modelling conventions:
* Rust `u64` values are `Nat`; where the source subtracts `u64`s unchecked the
  embedding makes the underflow explicit through `Option`.
* Float readings (`f32`/`f64`) are modelled as `ℚ`; a float value that is NaN
  (or otherwise non-comparable) is `Option.none`.
* Fallible code (`Result`, panics, slices that can trip a bounds or character
  boundary check) returns `Except`/`Option`; `none`/`.error` marks the failure.
-/

namespace SysMonitor

open scoped List

/-! ## Formatter: `format_bytes` (src/main.rs:421-436) -/

/-- The `UNITS` table of `format_bytes`. -/
def UNITS : List String := ["B", "KB", "MB", "GB", "TB"]

/-- The `while size >= 1024.0 && unit_index < UNITS.len() - 1` loop of
`format_bytes`.  The first argument is fuel bounding the iteration count; the
guard `unit_index < 4` stops the loop after at most four divisions, so calling
with fuel 4 runs the loop to completion exactly as the source does. -/
def fbLoop : Nat → ℚ → Nat → ℚ × Nat
  | 0, size, idx => (size, idx)
  | fuel + 1, size, idx =>
    if 1024 ≤ size ∧ idx < 4 then fbLoop fuel (size / 1024) (idx + 1) else (size, idx)

/-- Round `q * 10` to the nearest integer, ties to even — the rounding Rust's
`{:.1}` float formatting applies to the displayed decimal. -/
def round1 (q : ℚ) : ℤ :=
  let f := ⌊q * 10⌋
  let r := q * 10 - f
  if r < 1 / 2 then f else if 1 / 2 < r then f + 1 else if f % 2 = 0 then f else f + 1

/-- `format!("{:.1}", q)` for the nonnegative scaled sizes of `format_bytes`. -/
def fmtDec1 (q : ℚ) : String :=
  toString (round1 q / 10) ++ "." ++ toString (round1 q % 10)

/-- `format_bytes` (src/main.rs:421-436): scale by 1024 into the largest unit
available, then show one decimal except for plain bytes. -/
def format_bytes (bytes : Nat) : String :=
  let p := fbLoop 4 (bytes : ℚ) 0
  if p.2 = 0 then toString bytes ++ " B"
  else fmtDec1 p.1 ++ " " ++ UNITS.getD p.2 ""

/-- Specification-side description of the unit `format_bytes` is claimed to
pick: the largest unit in `{B, KB, MB, GB, TB}` whose scaled value is below
1024, capped at TB. -/
def specUnitIndex (bytes : Nat) : Nat :=
  if bytes < 1024 then 0
  else if bytes < 1024 ^ 2 then 1
  else if bytes < 1024 ^ 3 then 2
  else if bytes < 1024 ^ 4 then 3
  else 4

/-! ## Formatter: `truncate_name` (src/main.rs:452-458)

Rust's `&name[..k]` is a byte slice: it panics when `k` exceeds the string's
byte length or does not fall on a UTF-8 character boundary.  `byteTake cs k`
returns the characters making up the first `k` bytes, or `none` when `k` is not
a valid boundary. -/

/-- The first `k` UTF-8 bytes of a character list, as characters; `none` when
`k` overruns the string or falls inside a multi-byte character. -/
def byteTake : List Char → Nat → Option (List Char)
  | _, 0 => some []
  | [], _ + 1 => none
  | c :: cs, k + 1 =>
    if c.utf8Size ≤ k + 1 then (byteTake cs (k + 1 - c.utf8Size)).map (c :: ·) else none

/-- `truncate_name` (src/main.rs:452-458).  `name.len()` is the UTF-8 byte
length.  `none` models a panic: either the `usize` underflow of `max_len - 3`
(when `max_len < 3`) or a byte slice `&name[..max_len - 3]` that does not end on
a character boundary. -/
def truncate_name (name : String) (max_len : Nat) : Option String :=
  if max_len < name.utf8ByteSize then
    if max_len < 3 then none
    else (byteTake name.data (max_len - 3)).map (fun cs => String.mk cs ++ "...")
  else some name

/-! ## SnapshotAggregator: memory and swap gauges (src/main.rs:188-215) -/

/-- What a gauge displays: a percentage (`none` marking the NaN float artifact)
or the "Not configured" placeholder paragraph. -/
inductive GaugeView where
  | gauge (pct : Option ℚ)
  | notConfigured
deriving DecidableEq

/-- `used as f64 / total as f64 * 100.0`.  When `total = 0` the float division
produces NaN (`0.0 / 0.0`), modelled as `none`. -/
def pctOf (used total : Nat) : Option ℚ :=
  if total = 0 then none else some ((used : ℚ) / (total : ℚ) * 100)

/-- The memory gauge (src/main.rs:188-196): the percentage is computed
unconditionally, with no guard on `total_memory`. -/
def memoryGauge (total used : Nat) : GaugeView :=
  .gauge (pctOf used total)

/-- The swap gauge (src/main.rs:199-215): guarded by `total_swap > 0`, falling
back to the "Not configured" paragraph. -/
def swapGauge (total used : Nat) : GaugeView :=
  if 0 < total then .gauge (pctOf used total) else .notConfigured

/-! ## SnapshotAggregator: CPU temperature (src/main.rs:460-490) -/

/-- A temperature sensor as exposed by the provider: a label and an optional
reading (`component.temperature()` returns `Option<f32>`). -/
structure Component where
  label : String
  temperature : Option ℚ
deriving DecidableEq

/-- Does `needle` occur at the very start of `hay`? -/
def seqAt : List Char → List Char → Bool
  | [], _ => true
  | _ :: _, [] => false
  | n :: ns, h :: hs => n == h && seqAt ns hs

/-- Substring containment on character lists, mirroring Rust's
`str::contains`. -/
def containsSeq (hay needle : List Char) : Bool :=
  match hay with
  | [] => needle.isEmpty
  | _ :: rest => seqAt needle hay || containsSeq rest needle

/-- The label filter of `get_cpu_temperature`: the lowercased label contains
"cpu", "core" or "processor".  Lowercasing maps every character through
`Char.toLower`, as `str::to_lowercase` does on the ASCII labels involved. -/
def isCpuLabel (label : String) : Bool :=
  containsSeq (label.data.map Char.toLower) "cpu".data
    || containsSeq (label.data.map Char.toLower) "core".data
    || containsSeq (label.data.map Char.toLower) "processor".data

/-- Severity band derived from the average temperature. -/
inductive TempBand where
  | normal
  | warning
  | critical
deriving DecidableEq

/-- The structured content of the temperature summary line: either the average,
maximum and severity band, or the "Not available" sentinel. -/
inductive TempView where
  | available (avg mx : ℚ) (band : TempBand)
  | notAvailable
deriving DecidableEq

/-- The `cpu_temps` vector built by `get_cpu_temperature` (src/main.rs:461-472):
readings of components whose label qualifies and whose reading is present and
positive, in provider order. -/
def cpuTemps (cs : List Component) : List ℚ :=
  cs.filterMap fun c =>
    if isCpuLabel c.label then
      match c.temperature with
      | some t => if 0 < t then some t else none
      | none => none
    else none

/-- `get_cpu_temperature` (src/main.rs:460-490), with the formatted string
abstracted to its structured content. -/
def get_cpu_temperature (cs : List Component) : TempView :=
  let temps := cpuTemps cs
  if temps = [] then .notAvailable
  else
    let avg := temps.sum / (temps.length : ℚ)
    let mx := temps.foldl max 0
    .available avg mx
      (if 80 < avg then .critical else if 70 < avg then .warning else .normal)

/-- Specification-side predicate: a sensor qualifies for the CPU temperature
summary when its label is CPU-related and its reading is present and
positive. -/
def qualifies (c : Component) : Bool :=
  isCpuLabel c.label &&
    match c.temperature with
    | some t => decide (0 < t)
    | none => false

/-! ## ProcessRanker (src/main.rs:358-408) -/

/-- A process entry: id, name, CPU percent (`none` models a NaN `f32`), and
resident memory bytes. -/
structure Proc where
  pid : Nat
  name : String
  cpu : Option ℚ
  memory : Nat
deriving DecidableEq

/-- The CPU comparator of `draw_processes_tab` (src/main.rs:362-364) as a
"may precede" relation: `a` may come before `b` exactly when
`b.cpu_usage().partial_cmp(&a.cpu_usage()).unwrap_or(Equal)` is not `Greater`.
Non-comparable values (NaN) compare as equal, so the comparator is total and
never panics. -/
def cpuLe (a b : Proc) : Bool :=
  match a.cpu, b.cpu with
  | some x, some y => decide (y ≤ x)
  | _, _ => true

/-- The memory comparator of `draw_processes_tab` (src/main.rs:394):
`b.memory().cmp(&a.memory())` is not `Greater`. -/
def memLe (a b : Proc) : Bool :=
  decide (b.memory ≤ a.memory)

/-- Top CPU list (src/main.rs:358-378): stable sort by the CPU comparator, then
`take(15)`.  `List.mergeSort` is the standard model of Rust's stable
`slice::sort_by`. -/
def topByCpu (l : List Proc) : List Proc :=
  (l.mergeSort cpuLe).take 15

/-- Top memory list (src/main.rs:390-408): stable sort by descending memory,
then `take(15)`. -/
def topByMemory (l : List Proc) : List Proc :=
  (l.mergeSort memLe).take 15

/-- Specification-side relation "non-increasing by CPU percent": whenever both
entries carry comparable readings, the later one is no larger. -/
def cpuDescAt (a b : Proc) : Prop :=
  ∀ x y, a.cpu = some x → b.cpu = some y → y ≤ x

/-- Processes with a comparable (non-NaN) CPU reading. -/
def ProcC : Type := { p : Proc // p.cpu.isSome = true }

/-- The CPU comparator restricted to comparable processes. -/
def cpuLeC (a b : ProcC) : Bool := cpuLe a.1 b.1

/-- A four-process collection whose CPU readings are 3%, 1%, NaN, 5%.  Sorting
it with the NaN-as-equal comparator leaves it unchanged, so the 3% entry stays
in front of the 5% entry. -/
def exProcs : List Proc :=
  [⟨1, "a", some 3, 0⟩, ⟨2, "b", some 1, 0⟩, ⟨3, "c", none, 0⟩, ⟨4, "d", some 5, 0⟩]

/-- A small NaN-free process collection used to instantiate the ranking
theorem. -/
def wProcs : List Proc :=
  [⟨1, "x", some 2, 5⟩, ⟨2, "y", some 7, 3⟩]

/-! ## RefreshScheduler: `App::refresh` (src/main.rs:47-57) -/

/-- The application state relevant to refresh gating: the instant of the last
completed refresh (milliseconds on a monotonic clock), the most recent
completed snapshot, and the log of instants at which the raw provider was
actually re-queried (newest first). -/
structure AppState where
  last_update : Nat
  snapshot : Nat
  queries : List Nat
deriving DecidableEq

/-- `App::refresh` (src/main.rs:47-57): re-query the provider and stamp
`last_update` only when at least one second (1000 ms) elapsed since the last
completed refresh; otherwise do nothing.  Truncated `Nat` subtraction matches
the saturating behaviour of `Instant::elapsed` on a monotonic clock. -/
def refresh (provider : Nat → Nat) (now : Nat) (s : AppState) : AppState :=
  if 1000 ≤ now - s.last_update then
    { last_update := now, snapshot := provider now, queries := now :: s.queries }
  else s

/-- A sequence of `refresh` calls at the given instants. -/
def runCalls (provider : Nat → Nat) (times : List Nat) (s : AppState) : AppState :=
  times.foldl (fun st t => refresh provider t st) s

/-- Invariant tying the query log to the scheduler state: logged instants are
at least 1000 ms apart (newest first) and none is later than `last_update`. -/
def schedInv (s : AppState) : Prop :=
  List.Chain' (fun a b => b + 1000 ≤ a) s.queries ∧ ∀ q ∈ s.queries, q ≤ s.last_update

/-! ## DirectorySizeScanner: `calculate_directory_size` (src/main.rs:511-534) -/

/-- One entry yielded by the directory iterator.  `readFail` models an `Err`
from the iterator itself, `metaFail` a failing `entry.metadata()`; both are
skipped by the scan.  A `subdir` records the byte count of its contents, which
the scan never reads (no recursion). -/
inductive DirEntry where
  | readFail
  | metaFail
  | file (size : Nat)
  | subdir (contentBytes : Nat)
  | other
deriving DecidableEq

instance exceptDecEq {ε α : Type} [DecidableEq ε] [DecidableEq α] : DecidableEq (Except ε α)
  | .ok a, .ok b => decidable_of_iff (a = b) (by simp)
  | .ok _, .error _ => isFalse (by simp)
  | .error _, .ok _ => isFalse (by simp)
  | .error a, .error b => decidable_of_iff (a = b) (by simp)

/-- What a path refers to: nothing, a non-directory, or a directory whose
listing either reads successfully or fails with an OS error code. -/
inductive PathKind where
  | missing
  | nonDir
  | dir (listing : Except Nat (List DirEntry))
deriving DecidableEq

/-- The size contribution of one directory entry: only entries whose metadata
reads successfully and reports a plain file are counted. -/
def entryFileSize : DirEntry → Option Nat
  | .file s => some s
  | _ => none

/-- The loop body of `calculate_directory_size`: add the entry's size when it
is a readable plain file, otherwise leave the accumulator unchanged. -/
def entryFold (acc : Nat) (en : DirEntry) : Nat :=
  match entryFileSize en with
  | some s => acc + s
  | none => acc

/-- `calculate_directory_size` (src/main.rs:511-534): 0 for a missing or
non-directory path, an error exactly when `fs::read_dir` fails, and otherwise
the sum of the sizes of the immediate file entries, silently skipping entries
that fail to read or whose metadata fails. -/
def calculate_directory_size (path : PathKind) : Except Nat Nat :=
  match path with
  | .missing => .ok 0
  | .nonDir => .ok 0
  | .dir (.error e) => .error e
  | .dir (.ok entries) => .ok (entries.foldl entryFold 0)

/-- The home-directory size line of `draw_overview_tab` (src/main.rs:314-341):
a formatted size on success, a textual placeholder on a scan error — the error
is never fatal. -/
def homeSizeLine (p : PathKind) : String :=
  match calculate_directory_size p with
  | .ok size => "   📊 Size: " ++ format_bytes size
  | .error _ => "   ❌ Could not calculate size"

/-! ## DirectorySizeScanner: subdirectory ranking (src/main.rs:319-337) -/

/-- The fixed candidate list `common_dirs`. -/
def common_dirs : List String :=
  ["Downloads", "Documents", "Pictures", "Videos", "Desktop", "Music"]

/-- The `dir_sizes` vector (src/main.rs:320-331): each candidate that exists as
a subdirectory, whose scan succeeds, and whose size is positive, paired with
its size, in candidate order.  The home directory is modelled as a map from
candidate name to what that path refers to. -/
def dirSizes (sub : String → PathKind) : List (String × Nat) :=
  common_dirs.filterMap fun dname =>
    match sub dname with
    | .dir listing =>
      match calculate_directory_size (.dir listing) with
      | .ok s => if 0 < s then some (dname, s) else none
      | .error _ => none
    | _ => none

/-- The size comparator `|a, b| b.1.cmp(&a.1)` (descending by size) as a
"may precede" relation. -/
def sizeDescLe (a b : String × Nat) : Bool :=
  decide (b.2 ≤ a.2)

/-- Sort the candidate sizes descending and keep the top 2
(src/main.rs:334-335). -/
def rankSubdirectories (sub : String → PathKind) : List (String × Nat) :=
  ((dirSizes sub).mergeSort sizeDescLe).take 2

/-- A home directory with a single candidate subdirectory, "Downloads",
holding one 5-byte file. -/
def subW : String → PathKind := fun dname =>
  if dname = "Downloads" then .dir (.ok [.file 5]) else .missing

/-! ## SnapshotAggregator: disk aggregation (src/main.rs:278-297) -/

/-- A disk entry as exposed by the provider. -/
structure DiskInfo where
  total_space : Nat
  available_space : Nat
deriving DecidableEq

/-- The storage summary loop of `draw_overview_tab` (src/main.rs:278-297).
`used_space = total_space - available_space` is unchecked `u64` arithmetic
evaluated before the `total_space > 0` check; `none` models the underflow
(a panic in a debug build, wraparound in release).  The triple accumulated is
`(total_storage, total_used, disk_count)`. -/
def diskStep (acc : Option (Nat × Nat × Nat)) (d : DiskInfo) : Option (Nat × Nat × Nat) :=
  acc.bind fun t =>
    if d.available_space ≤ d.total_space then
      let used := d.total_space - d.available_space
      if 0 < d.total_space then some (t.1 + d.total_space, t.2.1 + used, t.2.2 + 1)
      else some t
    else none

/-- Folding `diskStep` over the provider's disk list, starting from zero
accumulators, as `draw_overview_tab` does. -/
def diskFold (disks : List DiskInfo) : Option (Nat × Nat × Nat) :=
  disks.foldl diskStep (some (0, 0, 0))

/-! ## Theorems -/

/-- Claim C1, amended: for every total `T > 0` and used `U`, both the memory
and the swap gauge report exactly `U / T * 100`; for `T = 0` the swap gauge
shows the "not configured" sentinel, while the memory gauge computes the
division unconditionally and displays the NaN artifact instead of the
sentinel. -/
theorem claim_C1 :
    (∀ T U : Nat, 0 < T →
      memoryGauge T U = .gauge (some ((U : ℚ) / (T : ℚ) * 100)) ∧
      swapGauge T U = .gauge (some ((U : ℚ) / (T : ℚ) * 100))) ∧
    (∀ U : Nat, swapGauge 0 U = .notConfigured ∧ memoryGauge 0 U = .gauge none) := by
  refine ⟨fun T U hT => ?_, fun U => ?_⟩
  · have hT0 : T ≠ 0 := Nat.pos_iff_ne_zero.mp hT
    exact ⟨by simp [memoryGauge, pctOf, hT0], by simp [swapGauge, pctOf, hT0, hT]⟩
  · exact ⟨by simp [swapGauge], by simp [memoryGauge, pctOf]⟩

/-- Claim C1, counterexample to the claim as stated: with total 0 the memory
reporting does not yield the "not configured" sentinel; it yields the NaN
division artifact. -/
theorem claim_C1_counterexample :
    memoryGauge 0 0 = GaugeView.gauge none ∧
    memoryGauge 0 0 ≠ GaugeView.notConfigured := by
  decide

/-- Claim C1, witness of the amended theorem at `T = 4`, `U = 1`. -/
theorem claim_C1_witness :
    memoryGauge 4 1 = .gauge (some (((1 : Nat) : ℚ) / ((4 : Nat) : ℚ) * 100)) ∧
    swapGauge 4 1 = .gauge (some (((1 : Nat) : ℚ) / ((4 : Nat) : ℚ) * 100)) :=
  claim_C1.1 4 1 (by decide)

/-- Claim C2, code bug: `truncate_name` panics instead of truncating on a
character boundary.  For the five-character, ten-byte name "ααααα" with limit 6
the slice `&name[..3]` ends inside a two-byte character, and for limits below 3
the `max_len - 3` subtraction underflows; `none` marks the panic. -/
theorem claim_C2 :
    truncate_name "ααααα" 6 = none ∧ truncate_name "abcde" 2 = none := by
  decide

/-- One `refresh` call preserves the scheduler invariant. -/
theorem refresh_schedInv (provider : Nat → Nat) (now : Nat) (s : AppState)
    (h : schedInv s) : schedInv (refresh provider now s) := by
  unfold refresh
  split
  next hge =>
    rcases h with ⟨hc, hle⟩
    refine ⟨?_, ?_⟩
    · cases hq : s.queries with
      | nil => simp
      | cons q rest =>
        rw [hq] at hc hle
        refine List.chain'_cons.mpr ⟨?_, hc⟩
        have h1 : q ≤ s.last_update := hle q (by simp)
        omega
    · intro q hqmem
      rcases List.mem_cons.mp hqmem with h1 | h1
      · simp [h1]
      · have h2 := hle q h1
        simp only []
        omega
  next => exact h

/-- Any sequence of `refresh` calls preserves the scheduler invariant. -/
theorem runCalls_schedInv (provider : Nat → Nat) (times : List Nat) (s : AppState)
    (h : schedInv s) : schedInv (runCalls provider times s) := by
  induction times generalizing s with
  | nil => simpa [runCalls] using h
  | cons t ts ih =>
    simp only [runCalls, List.foldl_cons]
    exact ih (refresh provider t s) (refresh_schedInv provider t s h)

/-- Claim C4: a `refresh` call made while the one-second window has not elapsed
leaves the application state entirely unchanged, and across any sequence of
calls the raw provider is re-queried at most once per rolling one-second
window: consecutive logged query instants are at least 1000 ms apart. -/
theorem claim_C4 :
    (∀ (provider : Nat → Nat) (now : Nat) (s : AppState),
      now - s.last_update < 1000 → refresh provider now s = s) ∧
    (∀ (provider : Nat → Nat) (times : List Nat) (t0 snap0 : Nat),
      List.Chain' (fun a b => b + 1000 ≤ a)
        (runCalls provider times ⟨t0, snap0, []⟩).queries) := by
  constructor
  · intro provider now s h
    unfold refresh
    rw [if_neg]
    omega
  · intro provider times t0 snap0
    exact (runCalls_schedInv provider times ⟨t0, snap0, []⟩
      ⟨List.chain'_nil, by simp⟩).1

/-- Claim C4, witness: a call 500 ms after the last refresh is a no-op. -/
theorem claim_C4_witness :
    refresh (fun _ => 0) 500 ⟨0, 7, []⟩ = ⟨0, 7, []⟩ :=
  claim_C4.1 (fun _ => 0) 500 ⟨0, 7, []⟩ (by decide)

/-- A successful directory read sums exactly the readable plain-file entries. -/
theorem calcSize_dir_ok (entries : List DirEntry) :
    calculate_directory_size (.dir (.ok entries)) =
      .ok ((entries.filterMap entryFileSize).sum) := by
  have go : ∀ (es : List DirEntry) (acc : Nat),
      es.foldl entryFold acc = acc + (es.filterMap entryFileSize).sum := by
    intro es
    induction es with
    | nil => simp
    | cons e es ih =>
      intro acc
      cases he : entryFileSize e with
      | some s =>
        simp [List.foldl_cons, entryFold, he, ih, List.filterMap_cons, Nat.add_assoc]
      | none =>
        simp [List.foldl_cons, entryFold, he, ih, List.filterMap_cons]
  simp [calculate_directory_size, go]

/-- Claim C5: scanning a directory holding only immediate files returns the
exact sum of their sizes; a directory holding only subdirectories yields 0
regardless of the subdirectories' contents; a missing or non-directory path
yields 0, not an error. -/
theorem claim_C5 :
    (∀ sizes : List Nat,
      calculate_directory_size (.dir (.ok (sizes.map DirEntry.file))) = .ok sizes.sum) ∧
    (∀ contents : List Nat,
      calculate_directory_size (.dir (.ok (contents.map DirEntry.subdir))) = .ok 0) ∧
    calculate_directory_size .missing = .ok 0 ∧
    calculate_directory_size .nonDir = .ok 0 := by
  refine ⟨fun sizes => ?_, fun contents => ?_, rfl, rfl⟩
  · rw [calcSize_dir_ok, List.filterMap_map]
    have hcomp : entryFileSize ∘ DirEntry.file = some := rfl
    rw [hcomp, List.filterMap_some]
  · rw [calcSize_dir_ok, List.filterMap_map]
    have hcomp : entryFileSize ∘ DirEntry.subdir = fun _ => none := rfl
    have hnil : (contents.filterMap fun _ : Nat => (none : Option Nat)) = [] :=
      List.filterMap_eq_nil_iff.mpr fun _ _ => rfl
    rw [hcomp, hnil]
    rfl

/-- Claim C6: the scan returns an error exactly when the directory listing
itself cannot be read; an entry that fails to read, or whose metadata fails, is
skipped silently and the scan still returns the partial sum over the remaining
readable files; the display layer surfaces the error as a textual placeholder,
never failing. -/
theorem claim_C6 :
    (∀ p : PathKind,
      (∃ e, calculate_directory_size p = .error e) ↔ ∃ e, p = .dir (.error e)) ∧
    (∀ entries : List DirEntry,
      calculate_directory_size (.dir (.ok entries)) =
        .ok ((entries.filterMap entryFileSize).sum)) ∧
    (∀ pre post : List DirEntry,
      calculate_directory_size (.dir (.ok (pre ++ DirEntry.readFail :: post))) =
        calculate_directory_size (.dir (.ok (pre ++ post))) ∧
      calculate_directory_size (.dir (.ok (pre ++ DirEntry.metaFail :: post))) =
        calculate_directory_size (.dir (.ok (pre ++ post)))) ∧
    (∀ e : Nat, homeSizeLine (.dir (.error e)) = "   ❌ Could not calculate size") := by
  refine ⟨fun p => ?_, calcSize_dir_ok, fun pre post => ⟨?_, ?_⟩, fun e => rfl⟩
  · constructor
    · rintro ⟨e, he⟩
      cases p with
      | missing => simp [calculate_directory_size] at he
      | nonDir => simp [calculate_directory_size] at he
      | dir listing =>
        cases listing with
        | error er => exact ⟨er, rfl⟩
        | ok entries => simp [calculate_directory_size] at he
    · rintro ⟨e, rfl⟩
      exact ⟨e, rfl⟩
  · rw [calcSize_dir_ok, calcSize_dir_ok]
    simp [List.filterMap_append, List.filterMap_cons, entryFileSize]
  · rw [calcSize_dir_ok, calcSize_dir_ok]
    simp [List.filterMap_append, List.filterMap_cons, entryFileSize]

/-- Folding the disk step from `none` stays `none`. -/
theorem foldl_diskStep_none (disks : List DiskInfo) :
    disks.foldl diskStep none = none := by
  induction disks with
  | nil => rfl
  | cons d ds ih => simpa [diskStep] using ih

/-- When every disk satisfies `available_space ≤ total_space`, the fold
succeeds and accumulates the sums over the disks with positive total space. -/
theorem foldl_diskStep_some (disks : List DiskInfo) :
    ∀ t : Nat × Nat × Nat, (∀ d ∈ disks, d.available_space ≤ d.total_space) →
      disks.foldl diskStep (some t) = some
        (t.1 + ((disks.filter fun d => 0 < d.total_space).map DiskInfo.total_space).sum,
         t.2.1 + ((disks.filter fun d => 0 < d.total_space).map
            fun d => d.total_space - d.available_space).sum,
         t.2.2 + (disks.filter fun d => 0 < d.total_space).length) := by
  induction disks with
  | nil => intro t h; simp
  | cons d ds ih =>
    intro t h
    have hd := h d (by simp)
    have hrest : ∀ x ∈ ds, x.available_space ≤ x.total_space :=
      fun x hx => h x (by simp [hx])
    by_cases hpos : 0 < d.total_space
    · have hstep : diskStep (some t) d =
          some (t.1 + d.total_space, t.2.1 + (d.total_space - d.available_space),
            t.2.2 + 1) := by
        simp [diskStep, hd, hpos]
      rw [List.foldl_cons, hstep, ih _ hrest,
        List.filter_cons_of_pos (by simpa using hpos)]
      simp only [List.map_cons, List.sum_cons, List.length_cons,
        Option.some.injEq, Prod.mk.injEq]
      refine ⟨by omega, by omega, by omega⟩
    · have hstep : diskStep (some t) d = some t := by
        simp [diskStep, hd, hpos]
      rw [List.foldl_cons, hstep, ih _ hrest,
        List.filter_cons_of_neg (by simpa using hpos)]

/-- The fold succeeds exactly when every disk satisfies the precondition. -/
theorem foldl_diskStep_isSome (disks : List DiskInfo) :
    ∀ t : Nat × Nat × Nat,
      (disks.foldl diskStep (some t)).isSome ↔
        ∀ d ∈ disks, d.available_space ≤ d.total_space := by
  induction disks with
  | nil => simp
  | cons d ds ih =>
    intro t
    by_cases hd : d.available_space ≤ d.total_space
    · have hu : ∃ u, diskStep (some t) d = some u := by
        by_cases hpos : 0 < d.total_space <;> simp [diskStep, hd, hpos]
      obtain ⟨u, hu⟩ := hu
      rw [List.foldl_cons, hu, ih u]
      simp [hd]
    · have hstep : diskStep (some t) d = none := by simp [diskStep, hd]
      rw [List.foldl_cons, hstep, foldl_diskStep_none]
      simp only [Option.isSome_none, Bool.false_eq_true, false_iff]
      intro hall
      exact hd (hall d (by simp))

/-- Claim C10: the disk aggregation computes `total_space - available_space`
before checking `total_space > 0`; the unsigned subtraction is well-defined for
the whole list exactly when every disk entry — including entries with zero
total space — satisfies `available_space ≤ total_space`, and under that
precondition the aggregation sums the disks with positive total space. -/
theorem claim_C10 :
    (∀ disks : List DiskInfo,
      (diskFold disks).isSome ↔ ∀ d ∈ disks, d.available_space ≤ d.total_space) ∧
    (∀ disks : List DiskInfo,
      (∀ d ∈ disks, d.available_space ≤ d.total_space) →
      diskFold disks = some
        (((disks.filter fun d => 0 < d.total_space).map DiskInfo.total_space).sum,
         ((disks.filter fun d => 0 < d.total_space).map
            fun d => d.total_space - d.available_space).sum,
         (disks.filter fun d => 0 < d.total_space).length)) ∧
    diskFold [⟨0, 1⟩] = none := by
  refine ⟨fun disks => ?_, fun disks h => ?_, by decide⟩
  · exact foldl_diskStep_isSome disks (0, 0, 0)
  · rw [diskFold, foldl_diskStep_some disks _ h]
    simp

/-- Claim C10, witness: one disk with total 10 and available 4 aggregates to
used 6 without underflow. -/
theorem claim_C10_witness : diskFold [⟨10, 4⟩] = some (10, 6, 1) := by
  have h := claim_C10.2.1 [⟨10, 4⟩] (by decide)
  simpa using h

/-- Scaling by `1024^k` reaches 1024 exactly when the byte count reaches
`1024^(k+1)`. -/
theorem le_div_pow1024 (b k : Nat) :
    ((1024 : ℚ) ≤ (b : ℚ) / 1024 ^ k) ↔ 1024 ^ (k + 1) ≤ b := by
  rw [le_div_iff₀ (by positivity : (0 : ℚ) < 1024 ^ k)]
  have h : ((1024 : ℚ)) * 1024 ^ k = ((1024 ^ (k + 1) : ℕ) : ℚ) := by push_cast; ring
  rw [h]
  exact Nat.cast_le

/-- Scaling by `1024^k` stays below 1024 exactly when the byte count is below
`1024^(k+1)`. -/
theorem div_pow1024_lt (b k : Nat) :
    ((b : ℚ) / 1024 ^ k < 1024) ↔ b < 1024 ^ (k + 1) := by
  rw [div_lt_iff₀ (by positivity : (0 : ℚ) < 1024 ^ k)]
  have h : ((1024 : ℚ)) * 1024 ^ k = ((1024 ^ (k + 1) : ℕ) : ℚ) := by push_cast; ring
  rw [h]
  exact Nat.cast_lt

/-- The unit index thresholds, with the powers of 1024 evaluated. -/
theorem specUnitIndex_eq (b : Nat) : specUnitIndex b =
    if b < 1024 then 0
    else if b < 1048576 then 1
    else if b < 1073741824 then 2
    else if b < 1099511627776 then 3
    else 4 := by
  norm_num [specUnitIndex]

/-- The scaling loop of `format_bytes` lands on the specification's unit index:
the byte count divided by `1024 ^ specUnitIndex`. -/
theorem fbLoop_eq (b : Nat) :
    fbLoop 4 (b : ℚ) 0 = ((b : ℚ) / 1024 ^ specUnitIndex b, specUnitIndex b) := by
  have hu : fbLoop 4 (b : ℚ) 0 =
      if 1024 ≤ (b : ℚ) then
        if 1024 ≤ (b : ℚ) / 1024 then
          if 1024 ≤ (b : ℚ) / 1024 / 1024 then
            if 1024 ≤ (b : ℚ) / 1024 / 1024 / 1024 then
              ((b : ℚ) / 1024 / 1024 / 1024 / 1024, 4)
            else ((b : ℚ) / 1024 / 1024 / 1024, 3)
          else ((b : ℚ) / 1024 / 1024, 2)
        else ((b : ℚ) / 1024, 1)
      else ((b : ℚ), 0) := by
    simp [fbLoop]
  have e4 : (b : ℚ) / 1024 / 1024 / 1024 / 1024 = (b : ℚ) / 1024 ^ 4 := by
    rw [div_div, div_div, div_div]; norm_num
  have e3 : (b : ℚ) / 1024 / 1024 / 1024 = (b : ℚ) / 1024 ^ 3 := by
    rw [div_div, div_div]; norm_num
  have e2 : (b : ℚ) / 1024 / 1024 = (b : ℚ) / 1024 ^ 2 := by
    rw [div_div]; norm_num
  have e1 : (b : ℚ) / 1024 = (b : ℚ) / 1024 ^ 1 := by norm_num
  rw [hu, e4, e3, e2, e1]
  by_cases h1 : b < 1024
  · have hc1 : ¬ (1024 : ℚ) ≤ (b : ℚ) := by exact_mod_cast Nat.not_le.mpr h1
    have hs : specUnitIndex b = 0 := by simp [specUnitIndex, h1]
    rw [if_neg hc1, hs]
    norm_num
  · have hc1 : (1024 : ℚ) ≤ (b : ℚ) := by exact_mod_cast Nat.not_lt.mp h1
    by_cases h2 : b < 1048576
    · have hc2 : ¬ (1024 : ℚ) ≤ (b : ℚ) / 1024 ^ 1 := by
        rw [le_div_pow1024]
        norm_num
        omega
      have hs : specUnitIndex b = 1 := by
        rw [specUnitIndex_eq]
        split_ifs <;> omega
      rw [if_pos hc1, if_neg hc2, hs]
    · have hc2 : (1024 : ℚ) ≤ (b : ℚ) / 1024 ^ 1 := by
        rw [le_div_pow1024]
        norm_num
        omega
      by_cases h3 : b < 1073741824
      · have hc3 : ¬ (1024 : ℚ) ≤ (b : ℚ) / 1024 ^ 2 := by
          rw [le_div_pow1024]
          norm_num
          omega
        have hs : specUnitIndex b = 2 := by
          rw [specUnitIndex_eq]
          split_ifs <;> omega
        rw [if_pos hc1, if_pos hc2, if_neg hc3, hs]
      · have hc3 : (1024 : ℚ) ≤ (b : ℚ) / 1024 ^ 2 := by
          rw [le_div_pow1024]
          norm_num
          omega
        by_cases h4 : b < 1099511627776
        · have hc4 : ¬ (1024 : ℚ) ≤ (b : ℚ) / 1024 ^ 3 := by
            rw [le_div_pow1024]
            norm_num
            omega
          have hs : specUnitIndex b = 3 := by
            rw [specUnitIndex_eq]
            split_ifs <;> omega
          rw [if_pos hc1, if_pos hc2, if_pos hc3, if_neg hc4, hs]
        · have hc4 : (1024 : ℚ) ≤ (b : ℚ) / 1024 ^ 3 := by
            rw [le_div_pow1024]
            norm_num
            omega
          have hs : specUnitIndex b = 4 := by
            rw [specUnitIndex_eq]
            split_ifs <;> omega
          rw [if_pos hc1, if_pos hc2, if_pos hc3, if_pos hc4, hs]

/-- Claim C8: `format_bytes` scales by repeated division by 1024, choosing the
largest unit in {B, KB, MB, GB, TB} whose scaled value is below 1024 (capped at
TB), shows one decimal place except for plain bytes, and maps 0, 1024, 1536 and
1073741824 to "0 B", "1.0 KB", "1.5 KB" and "1.0 GB". -/
theorem claim_C8 :
    (∀ b : Nat,
      fbLoop 4 (b : ℚ) 0 = ((b : ℚ) / 1024 ^ specUnitIndex b, specUnitIndex b) ∧
      specUnitIndex b ≤ 4 ∧
      (0 < specUnitIndex b → (1024 : ℚ) ≤ (b : ℚ) / 1024 ^ (specUnitIndex b - 1)) ∧
      (specUnitIndex b < 4 → (b : ℚ) / 1024 ^ specUnitIndex b < 1024) ∧
      (specUnitIndex b = 0 → format_bytes b = toString b ++ " B") ∧
      (0 < specUnitIndex b →
        format_bytes b =
          fmtDec1 ((b : ℚ) / 1024 ^ specUnitIndex b) ++ " " ++
            UNITS.getD (specUnitIndex b) "")) ∧
    format_bytes 0 = "0 B" ∧ format_bytes 1024 = "1.0 KB" ∧
    format_bytes 1536 = "1.5 KB" ∧ format_bytes 1073741824 = "1.0 GB" := by
  have hfmt : ∀ b : Nat, format_bytes b =
      if specUnitIndex b = 0 then toString b ++ " B"
      else fmtDec1 ((b : ℚ) / 1024 ^ specUnitIndex b) ++ " " ++
        UNITS.getD (specUnitIndex b) "" := by
    intro b
    simp only [format_bytes, fbLoop_eq b]
  refine ⟨fun b => ⟨fbLoop_eq b, ?_, ?_, ?_, ?_, ?_⟩, ?_, ?_, ?_, ?_⟩
  · unfold specUnitIndex
    split_ifs <;> omega
  · intro hpos
    unfold specUnitIndex at hpos ⊢
    split_ifs at hpos ⊢ with h1 h2 h3 h4
    · omega
    · have hb : 1024 ^ (0 + 1) ≤ b := by simpa using Nat.not_lt.mp h1
      simpa using (le_div_pow1024 b 0).mpr hb
    · have hb : 1024 ^ (1 + 1) ≤ b := Nat.not_lt.mp h2
      simpa using (le_div_pow1024 b 1).mpr hb
    · have hb : 1024 ^ (2 + 1) ≤ b := Nat.not_lt.mp h3
      simpa using (le_div_pow1024 b 2).mpr hb
    · have hb : 1024 ^ (3 + 1) ≤ b := Nat.not_lt.mp h4
      simpa using (le_div_pow1024 b 3).mpr hb
  · intro hlt
    unfold specUnitIndex at hlt ⊢
    split_ifs at hlt ⊢ with h1 h2 h3 h4
    · have hb : b < 1024 ^ (0 + 1) := by simpa using h1
      simpa using (div_pow1024_lt b 0).mpr hb
    · simpa using (div_pow1024_lt b 1).mpr h2
    · simpa using (div_pow1024_lt b 2).mpr h3
    · simpa using (div_pow1024_lt b 3).mpr h4
    · omega
  · intro h0
    rw [hfmt b, if_pos h0]
  · intro hpos
    rw [hfmt b, if_neg (by omega)]
  · rw [hfmt 0, if_pos (by norm_num [specUnitIndex])]
    rfl
  · have hs : specUnitIndex 1024 = 1 := by norm_num [specUnitIndex]
    rw [hfmt 1024, if_neg (by omega), hs]
    have hv : ((1024 : Nat) : ℚ) / 1024 ^ 1 = 1 := by norm_num
    rw [hv]
    have hr : fmtDec1 1 = "1.0" := by
      have : round1 1 = 10 := by norm_num [round1]
      rw [fmtDec1, this]
      rfl
    rw [hr]
    rfl
  · have hs : specUnitIndex 1536 = 1 := by norm_num [specUnitIndex]
    rw [hfmt 1536, if_neg (by omega), hs]
    have hv : ((1536 : Nat) : ℚ) / 1024 ^ 1 = 3 / 2 := by norm_num
    rw [hv]
    have hr : fmtDec1 (3 / 2) = "1.5" := by
      have : round1 (3 / 2) = 15 := by norm_num [round1]
      rw [fmtDec1, this]
      rfl
    rw [hr]
    rfl
  · have hs : specUnitIndex 1073741824 = 3 := by norm_num [specUnitIndex]
    rw [hfmt 1073741824, if_neg (by omega), hs]
    have hv : ((1073741824 : Nat) : ℚ) / 1024 ^ 3 = 1 := by norm_num
    rw [hv]
    have hr : fmtDec1 1 = "1.0" := by
      have : round1 1 = 10 := by norm_num [round1]
      rw [fmtDec1, this]
      rfl
    rw [hr]
    rfl

/-- Claim C8, witness: at 1536 bytes the unit index is positive and the
formatted string follows the one-decimal scaled form. -/
theorem claim_C8_witness :
    format_bytes 1536 =
      fmtDec1 (((1536 : Nat) : ℚ) / 1024 ^ specUnitIndex 1536) ++ " " ++
        UNITS.getD (specUnitIndex 1536) "" :=
  (claim_C8.1 1536).2.2.2.2.2 (by decide)

/-- The readings collected by the temperature loop are exactly the readings of
the qualifying sensors, in order. -/
theorem cpuTemps_eq (cs : List Component) :
    cpuTemps cs = (cs.filter qualifies).filterMap Component.temperature := by
  induction cs with
  | nil => rfl
  | cons c cc ih =>
    by_cases hl : isCpuLabel c.label
    · cases ht : c.temperature with
      | some t =>
        by_cases hp : (0 : ℚ) < t
        · have hq : qualifies c = true := by simp [qualifies, hl, ht, hp]
          have hhead : cpuTemps (c :: cc) = t :: cpuTemps cc := by
            simp [cpuTemps, List.filterMap_cons, hl, ht, hp]
          rw [hhead, ih, List.filter_cons_of_pos (by simpa using hq),
            List.filterMap_cons, ht]
        · have hq : qualifies c = false := by simp [qualifies, hl, ht, hp]
          have hhead : cpuTemps (c :: cc) = cpuTemps cc := by
            simp [cpuTemps, List.filterMap_cons, hl, ht, hp]
          rw [hhead, ih, List.filter_cons_of_neg (by simpa using hq)]
      | none =>
        have hq : qualifies c = false := by simp [qualifies, hl, ht]
        have hhead : cpuTemps (c :: cc) = cpuTemps cc := by
          simp [cpuTemps, List.filterMap_cons, hl, ht]
        rw [hhead, ih, List.filter_cons_of_neg (by simpa using hq)]
    · have hq : qualifies c = false := by simp [qualifies, hl]
      have hhead : cpuTemps (c :: cc) = cpuTemps cc := by
        simp [cpuTemps, List.filterMap_cons, hl]
      rw [hhead, ih, List.filter_cons_of_neg (by simpa using hq)]

/-- The qualifying readings vanish exactly when no sensor qualifies: every
qualifying sensor carries a `some` reading. -/
theorem filter_qualifies_nil_iff (cs : List Component) :
    (cs.filter qualifies).filterMap Component.temperature = [] ↔
      cs.filter qualifies = [] := by
  constructor
  · intro h
    rcases hf : cs.filter qualifies with _ | ⟨c, rest⟩
    · rfl
    · exfalso
      have hmem : c ∈ cs.filter qualifies := by rw [hf]; exact List.mem_cons_self c rest
      have hc : qualifies c = true := (List.mem_filter.mp hmem).2
      have hnone := List.filterMap_eq_nil_iff.mp h c hmem
      rcases ht : c.temperature with _ | t
      · simp [qualifies, ht] at hc
      · rw [ht] at hnone
        cases hnone
  · intro h
    rw [h]
    rfl

/-- Characterisation of the severity band applied to the average. -/
theorem band_spec (avg : ℚ) :
    ((if 80 < avg then TempBand.critical
      else if 70 < avg then TempBand.warning else TempBand.normal) = .normal ↔
        avg ≤ 70) ∧
    ((if 80 < avg then TempBand.critical
      else if 70 < avg then TempBand.warning else TempBand.normal) = .warning ↔
        70 < avg ∧ avg ≤ 80) ∧
    ((if 80 < avg then TempBand.critical
      else if 70 < avg then TempBand.warning else TempBand.normal) = .critical ↔
        80 < avg) := by
  by_cases h1 : (80 : ℚ) < avg
  · rw [if_pos h1]
    exact ⟨⟨fun h => TempBand.noConfusion h, fun h => absurd h1 (by linarith)⟩,
           ⟨fun h => TempBand.noConfusion h, fun h => absurd h.2 (by linarith)⟩,
           ⟨fun _ => h1, fun _ => rfl⟩⟩
  · rw [if_neg h1]
    by_cases h2 : (70 : ℚ) < avg
    · rw [if_pos h2]
      exact ⟨⟨fun h => TempBand.noConfusion h, fun h => absurd h2 (by linarith)⟩,
             ⟨fun _ => ⟨h2, by linarith⟩, fun _ => rfl⟩,
             ⟨fun h => TempBand.noConfusion h, fun h => absurd h h1⟩⟩
    · rw [if_neg h2]
      exact ⟨⟨fun _ => by linarith, fun _ => rfl⟩,
             ⟨fun h => TempBand.noConfusion h, fun h => absurd h.1 h2⟩,
             ⟨fun h => TempBand.noConfusion h, fun h => absurd h h1⟩⟩

/-- Claim C7: the temperature summary includes exactly the sensors whose label
contains (case-insensitively) "cpu", "core" or "processor" and whose reading is
positive; with no qualifying sensor it reports the "not available" sentinel;
otherwise the severity band of the average is normal at most at 70°C, warning
above 70°C up to 80°C (e.g. average 75°C), and critical above 80°C. -/
theorem claim_C7 :
    (∀ cs : List Component,
      cpuTemps cs = (cs.filter qualifies).filterMap Component.temperature ∧
      (get_cpu_temperature cs = .notAvailable ↔ cs.filter qualifies = []) ∧
      (cs.filter qualifies ≠ [] →
        ∃ avg mx band, get_cpu_temperature cs = .available avg mx band ∧
          avg = (cpuTemps cs).sum / ((cpuTemps cs).length : ℚ) ∧
          (band = .normal ↔ avg ≤ 70) ∧
          (band = .warning ↔ 70 < avg ∧ avg ≤ 80) ∧
          (band = .critical ↔ 80 < avg))) ∧
    get_cpu_temperature [⟨"CPU Package", some 75⟩] = .available 75 75 .warning ∧
    get_cpu_temperature [⟨"gpu", some 90⟩, ⟨"Core 0", some (-5)⟩] = .notAvailable := by
  have hlink : ∀ cs : List Component,
      cpuTemps cs = [] ↔ cs.filter qualifies = [] := by
    intro cs
    rw [cpuTemps_eq]
    exact filter_qualifies_nil_iff cs
  refine ⟨fun cs => ⟨cpuTemps_eq cs, ?_, ?_⟩, ?_, ?_⟩
  · constructor
    · intro h
      by_contra hne
      have htne : cpuTemps cs ≠ [] := fun hh => hne ((hlink cs).mp hh)
      simp only [get_cpu_temperature] at h
      rw [if_neg htne] at h
      cases h
    · intro h
      simp only [get_cpu_temperature]
      rw [if_pos ((hlink cs).mpr h)]
  · intro hne
    have htne : cpuTemps cs ≠ [] := fun hh => hne ((hlink cs).mp hh)
    simp only [get_cpu_temperature]
    rw [if_neg htne]
    exact ⟨_, _, _, rfl, rfl, (band_spec _).1, (band_spec _).2.1, (band_spec _).2.2⟩
  · have h1 : cpuTemps [⟨"CPU Package", some 75⟩] = [75] := by decide
    simp only [get_cpu_temperature, h1]
    norm_num
  · have h2 : cpuTemps [⟨"gpu", some 90⟩, ⟨"Core 0", some (-5)⟩] = [] := by decide
    simp only [get_cpu_temperature, h2]
    rfl

/-- Claim C7, witness: a single qualifying sensor at 75°C yields an available
summary whose band satisfies the warning characterisation. -/
theorem claim_C7_witness :
    ∃ avg mx band,
      get_cpu_temperature [⟨"cpu", some 75⟩] = .available avg mx band ∧
      avg = (cpuTemps [⟨"cpu", some 75⟩]).sum /
        ((cpuTemps [⟨"cpu", some 75⟩]).length : ℚ) ∧
      (band = .normal ↔ avg ≤ 70) ∧
      (band = .warning ↔ 70 < avg ∧ avg ≤ 80) ∧
      (band = .critical ↔ 80 < avg) :=
  ((claim_C7.1 [⟨"cpu", some 75⟩]).2.2) (by decide)

/-- The memory comparator is transitive. -/
theorem memLe_trans : ∀ a b c : Proc, memLe a b → memLe b c → memLe a c := by
  intro a b c h1 h2
  simp only [memLe, decide_eq_true_eq] at *
  omega

/-- The memory comparator is total. -/
theorem memLe_total : ∀ a b : Proc, memLe a b || memLe b a := by
  intro a b
  simp only [memLe, Bool.or_eq_true, decide_eq_true_eq]
  omega

/-- On comparable processes the CPU comparator is transitive. -/
theorem cpuLeC_trans : ∀ a b c : ProcC, cpuLeC a b → cpuLeC b c → cpuLeC a c := by
  rintro ⟨a, ha⟩ ⟨b, hb⟩ ⟨c, hc⟩ h1 h2
  obtain ⟨x, hx⟩ := Option.isSome_iff_exists.mp ha
  obtain ⟨y, hy⟩ := Option.isSome_iff_exists.mp hb
  obtain ⟨z, hz⟩ := Option.isSome_iff_exists.mp hc
  simp only [cpuLeC, cpuLe, hx, hy, hz, decide_eq_true_eq] at *
  linarith

/-- On comparable processes the CPU comparator is total. -/
theorem cpuLeC_total : ∀ a b : ProcC, cpuLeC a b || cpuLeC b a := by
  rintro ⟨a, ha⟩ ⟨b, hb⟩
  obtain ⟨x, hx⟩ := Option.isSome_iff_exists.mp ha
  obtain ⟨y, hy⟩ := Option.isSome_iff_exists.mp hb
  simp only [cpuLeC, cpuLe, hx, hy, Bool.or_eq_true, decide_eq_true_eq]
  exact le_total y x

/-- Sorting comparable processes with the restricted comparator and projecting
back gives the sort of the plain list. -/
theorem mergeSortC_map (l : List Proc) (h : ∀ p ∈ l, p.cpu.isSome = true) :
    ((l.attachWith (fun p => p.cpu.isSome = true) h).mergeSort cpuLeC).map
        Subtype.val = l.mergeSort cpuLe := by
  rw [List.map_mergeSort (r := cpuLeC) (f := Subtype.val) (s := cpuLe) (fun a _ b _ => rfl),
    List.attachWith_map_subtype_val]

/-- A comparator success yields the numeric non-increase on comparable
readings. -/
theorem cpuLe_descAt {a b : Proc} (hab : cpuLe a b = true) : cpuDescAt a b := by
  intro x y hx hy
  simp only [cpuLe, hx, hy, decide_eq_true_eq] at hab
  exact hab

/-- When every CPU reading is comparable, the sorted list is non-increasing by
CPU percent. -/
theorem mergeSort_cpu_sorted (l : List Proc) (h : ∀ p ∈ l, p.cpu.isSome = true) :
    List.Pairwise cpuDescAt (l.mergeSort cpuLe) := by
  have hsorted := List.sorted_mergeSort cpuLeC_trans cpuLeC_total
    (l.attachWith (fun p => p.cpu.isSome = true) h)
  have hp : (l.mergeSort cpuLe).Pairwise fun a b : Proc => cpuLe a b = true := by
    rw [← mergeSortC_map l h]
    exact List.pairwise_map.mpr (hsorted.imp fun hab => hab)
  exact hp.imp fun hab => cpuLe_descAt hab

/-- When every CPU reading is comparable, entries with equal CPU keys keep
their relative order through the CPU sort. -/
theorem mergeSort_cpu_stable (l : List Proc) (h : ∀ p ∈ l, p.cpu.isSome = true)
    (a b : Proc) (hab : [a, b] <+ l) (hk : a.cpu = b.cpu) :
    [a, b] <+ l.mergeSort cpuLe := by
  have hsub : [a, b] <+
      (l.attachWith (fun p => p.cpu.isSome = true) h).map Subtype.val := by
    rw [List.attachWith_map_subtype_val]
    exact hab
  obtain ⟨c, hc, hceq⟩ := List.sublist_map_iff.mp hsub
  rcases c with _ | ⟨x, c⟩
  · simp at hceq
  · rcases c with _ | ⟨y, c⟩
    · simp at hceq
    · rcases c with _ | ⟨z, c⟩
      · simp only [List.map_cons, List.map_nil, List.cons.injEq, and_true] at hceq
        obtain ⟨hxa, hyb⟩ := hceq
        have hle : cpuLeC x y = true := by
          obtain ⟨v, hv⟩ := Option.isSome_iff_exists.mp y.2
          have hxv : x.1.cpu = some v := by rw [← hxa, hk, hyb]; exact hv
          simp [cpuLeC, cpuLe, hxv, hv]
        have hms := List.pair_sublist_mergeSort cpuLeC_trans cpuLeC_total hle hc
        have hmaps := hms.map Subtype.val
        rw [mergeSortC_map l h] at hmaps
        rw [hxa, hyb]
        simpa using hmaps
      · simp at hceq

/-- Claim C3, amended: both rankings return `min 15 n` entries and never panic
(the comparator is total); the memory ranking is always sorted non-increasing
and stable; the CPU ranking is sorted non-increasing and stable whenever every
CPU reading is comparable (non-NaN) — with NaN present the comparator loses
transitivity and comparable entries may appear out of order. -/
theorem claim_C3 :
    (∀ l : List Proc,
      (topByCpu l).length = min 15 l.length ∧
      (topByMemory l).length = min 15 l.length ∧
      List.Pairwise (fun a b : Proc => b.memory ≤ a.memory) (topByMemory l) ∧
      ((∀ p ∈ l, (p.cpu).isSome = true) →
        List.Pairwise cpuDescAt (topByCpu l)) ∧
      (∀ a b : Proc, [a, b] <+ l → a.memory = b.memory →
        [a, b] <+ l.mergeSort memLe) ∧
      ((∀ p ∈ l, (p.cpu).isSome = true) → ∀ a b : Proc, [a, b] <+ l →
        a.cpu = b.cpu → [a, b] <+ l.mergeSort cpuLe)) ∧
    (∀ a b : Proc, cpuLe a b = true ∨ cpuLe b a = true) := by
  refine ⟨fun l => ⟨?_, ?_, ?_, ?_, ?_, ?_⟩, ?_⟩
  · simp [topByCpu, List.length_take, List.length_mergeSort]
  · simp [topByMemory, List.length_take, List.length_mergeSort]
  · have hs := List.sorted_mergeSort memLe_trans memLe_total l
    have hp : (l.mergeSort memLe).Pairwise fun a b : Proc => b.memory ≤ a.memory :=
      hs.imp fun hab => by simpa [memLe] using hab
    exact hp.sublist (List.take_sublist _ _)
  · intro h
    exact (mergeSort_cpu_sorted l h).sublist (List.take_sublist _ _)
  · intro a b hab hk
    exact List.pair_sublist_mergeSort memLe_trans memLe_total
      (by simp [memLe, hk]) hab
  · intro h a b hab hk
    exact mergeSort_cpu_stable l h a b hab hk
  · intro a b
    rcases ha : a.cpu with _ | x <;> rcases hb : b.cpu with _ | y
    · exact Or.inl (by simp [cpuLe, ha, hb])
    · exact Or.inl (by simp [cpuLe, ha, hb])
    · exact Or.inl (by simp [cpuLe, ha, hb])
    · rcases le_total y x with hxy | hxy
      · exact Or.inl (by simp [cpuLe, ha, hb, hxy])
      · exact Or.inr (by simp [cpuLe, ha, hb, hxy])

/-- Claim C3, counterexample to the claim as stated: on the collection with CPU
readings 3, 1, NaN, 5 the produced top list keeps the 3-percent entry in front
of the 5-percent entry — the output is not non-increasing by CPU percent. -/
theorem claim_C3_counterexample :
    ¬ List.Pairwise cpuDescAt (topByCpu exProcs) := by
  have h : topByCpu exProcs = exProcs := by
    simp [topByCpu, exProcs, List.mergeSort, List.splitInTwo, List.merge, cpuLe]
  rw [h]
  intro hp
  rw [show exProcs = [⟨1, "a", some 3, 0⟩, ⟨2, "b", some 1, 0⟩,
    ⟨3, "c", none, 0⟩, ⟨4, "d", some 5, 0⟩] from rfl] at hp
  have h1 := (List.pairwise_cons.mp hp).1 ⟨4, "d", some 5, 0⟩ (by decide)
  have h53 : (5 : ℚ) ≤ 3 := h1 3 5 rfl rfl
  linarith

/-- Claim C3, witness of the amended theorem on a NaN-free collection. -/
theorem claim_C3_witness :
    (topByCpu wProcs).length = min 15 wProcs.length ∧
    List.Pairwise cpuDescAt (topByCpu wProcs) :=
  ⟨(claim_C3.1 wProcs).1, (claim_C3.1 wProcs).2.2.2.1 (by decide)⟩

/-- The size comparator is transitive. -/
theorem sizeDescLe_trans :
    ∀ a b c : String × Nat, sizeDescLe a b → sizeDescLe b c → sizeDescLe a c := by
  intro a b c h1 h2
  simp only [sizeDescLe, decide_eq_true_eq] at *
  omega

/-- The size comparator is total. -/
theorem sizeDescLe_total : ∀ a b : String × Nat, sizeDescLe a b || sizeDescLe b a := by
  intro a b
  simp only [sizeDescLe, Bool.or_eq_true, decide_eq_true_eq]
  omega

/-- Claim C9: the subdirectory ranking scans exactly the fixed candidates that
exist as subdirectories and scan to a positive size, sorts them non-increasing
by size, and returns at most the top 2 — any candidate left out is no larger
than every returned one. -/
theorem claim_C9 :
    ∀ sub : String → PathKind,
      (rankSubdirectories sub).length = min 2 (dirSizes sub).length ∧
      List.Pairwise (fun a b : String × Nat => b.2 ≤ a.2) (rankSubdirectories sub) ∧
      (∀ x, x ∈ rankSubdirectories sub → x ∈ dirSizes sub) ∧
      (∀ x ∈ dirSizes sub, x ∈ rankSubdirectories sub ∨
        ∀ y ∈ rankSubdirectories sub, x.2 ≤ y.2) ∧
      (∀ dname s, (dname, s) ∈ dirSizes sub ↔
        dname ∈ common_dirs ∧ ∃ L, sub dname = .dir L ∧
          calculate_directory_size (.dir L) = .ok s ∧ 0 < s) := by
  intro sub
  have hsorted := List.sorted_mergeSort sizeDescLe_trans sizeDescLe_total (dirSizes sub)
  have hnum : ((dirSizes sub).mergeSort sizeDescLe).Pairwise
      fun a b : String × Nat => b.2 ≤ a.2 :=
    hsorted.imp fun hab => by simpa [sizeDescLe] using hab
  refine ⟨?_, ?_, ?_, ?_, ?_⟩
  · simp [rankSubdirectories, List.length_take, List.length_mergeSort]
  · exact hnum.sublist (List.take_sublist _ _)
  · intro x hx
    exact List.mem_mergeSort.mp (List.mem_of_mem_take hx)
  · intro x hx
    have hxms : x ∈ (dirSizes sub).mergeSort sizeDescLe := List.mem_mergeSort.mpr hx
    rw [← List.take_append_drop 2 ((dirSizes sub).mergeSort sizeDescLe)] at hxms
    rcases List.mem_append.mp hxms with h1 | h1
    · exact Or.inl h1
    · right
      intro y hy
      have hp := hnum
      rw [← List.take_append_drop 2 ((dirSizes sub).mergeSort sizeDescLe)] at hp
      exact (List.pairwise_append.mp hp).2.2 y hy x h1
  · intro dname s
    constructor
    · intro hmem
      obtain ⟨a, ha, hfa⟩ := List.mem_filterMap.mp hmem
      rcases hsub : sub a with _ | _ | L
      · simp only [hsub] at hfa
        cases hfa
      · simp only [hsub] at hfa
        cases hfa
      · simp only [hsub] at hfa
        rcases hcalc : calculate_directory_size (.dir L) with e | sz
        · simp only [hcalc] at hfa
          cases hfa
        · simp only [hcalc] at hfa
          by_cases hpos : 0 < sz
          · rw [if_pos hpos] at hfa
            obtain ⟨hda, hss⟩ := Prod.mk.injEq .. ▸ Option.some.inj hfa
            subst hda
            subst hss
            exact ⟨ha, L, hsub, hcalc, hpos⟩
          · rw [if_neg hpos] at hfa
            cases hfa
    · rintro ⟨hmem, L, hsub, hcalc, hpos⟩
      exact List.mem_filterMap.mpr ⟨dname, hmem, by simp [hsub, hcalc, hpos]⟩

/-- Claim C9, witness: with a single candidate subdirectory "Downloads" of size
5, the membership characterisation and the length law hold concretely. -/
theorem claim_C9_witness :
    ("Downloads", 5) ∈ dirSizes subW ∧
    (rankSubdirectories subW).length = min 2 (dirSizes subW).length :=
  ⟨((claim_C9 subW).2.2.2.2 "Downloads" 5).mpr
      ⟨by decide, .ok [.file 5], by decide, by decide, by decide⟩,
    (claim_C9 subW).1⟩

end SysMonitor
